import Mathlib

/-!
Verification development for the live-video relay repository.

The repository's source contains a small cgo string utility (`Echo` in
`go_string.go`) and an nginx-rtmp configuration fragment (`hls_fragment 4s`,
`hls_playlist_length 20s`).  The relay pipeline itself (SessionRegistry,
TranscodeSupervisor, SegmentWriter, PlaylistManager, IngestServer) is
described by the design specification only; the definitions in the `Relay`
namespace are therefore modelled from the spec.  The `GoFFI` namespace
embeds the `Echo` function of `go_string.go`.
-/

namespace Relay

/-- Modelled from the spec: a Segment is an immutable unit of output media
with a per-session monotonically increasing sequence number and a duration
(seconds). Byte size, storage location and timestamp play no role in the
claims and are elided. -/
structure Segment where
  seq : Nat
  duration : Nat
  deriving DecidableEq, Repr

/-- Modelled from the spec: a Playlist is the ordered sequence of currently
retained segment references plus the media-sequence counter (the sequence
number of the oldest segment still referenced) and an ended flag set on
finalization. -/
structure Playlist where
  segments : List Segment
  mediaSeq : Nat
  ended : Bool
  deriving DecidableEq, Repr

/-- Total retained duration of a list of segments. -/
def totalDuration (segs : List Segment) : Nat :=
  (segs.map Segment.duration).sum

/-- Modelled from the spec: the eviction loop of PlaylistManager.append —
while the total retained duration exceeds the configured window, evict from
the head, advancing the media-sequence counter by one per eviction. -/
def evict (window : Nat) : List Segment → Nat → List Segment × Nat
  | [], m => ([], m)
  | s :: rest, m =>
      if window < totalDuration (s :: rest) then evict window rest (m + 1)
      else (s :: rest, m)

/-- Modelled from the spec: `PlaylistManager.append` — push the new segment
to the tail, then run the eviction loop. -/
def append (window : Nat) (pl : Playlist) (seg : Segment) : Playlist :=
  let em := evict window (pl.segments ++ [seg]) pl.mediaSeq
  { segments := em.1, mediaSeq := em.2, ended := pl.ended }

/-- The empty playlist of a fresh session whose first segment will carry
sequence number `startSeq` (the spec allows numbering from 0 or 1; the
window scenario fixes 1). -/
def emptyPlaylist (startSeq : Nat) : Playlist :=
  { segments := [], mediaSeq := startSeq, ended := false }

/-- The spec's window scenario: window 20 s, segment duration 4 s, six
segments numbered 1..6 appended sequentially. -/
def windowScenario : Playlist :=
  (List.range 6).foldl
    (fun pl i => append 20 pl { seq := i + 1, duration := 4 })
    (emptyPlaylist 1)

/-- Modelled from the spec: the supervisor-visible lifecycle of a session:
running with a count of consecutive worker failures, fatally torn down
after the retry budget is exhausted, or stopped by an explicit stop. -/
inductive SupState where
  | running (failures : Nat)
  | fatal
  | stopped
  deriving DecidableEq, Repr

/-- Modelled from the spec: the events a session observes — the worker
completes a segment of some duration, the worker crashes unexpectedly, or
an explicit stop arrives.  A crash is followed by a restart of the worker
unless the retry budget is exhausted, so a `segmentDone` after a `crash`
is output of the restarted worker instance. -/
inductive SEvent where
  | segmentDone (duration : Nat)
  | crash
  | stopCmd
  deriving DecidableEq, Repr

/-- Modelled from the spec: per-session state — supervisor state, playlist,
the SegmentWriter's next sequence number (assigned to the next completed
segment), and the trace of every sequence number ever appended to the
playlist (history, kept to state uniqueness claims). -/
structure Sess where
  sup : SupState
  pl : Playlist
  nextSeq : Nat
  appended : List Nat
  deriving DecidableEq, Repr

/-- Modelled from the spec: one step of the session pipeline.  A completed
segment is assigned the next sequence number and appended to the playlist;
a crash increments the consecutive-failure count and, once it reaches
`maxAttempts`, transitions to fatal teardown marking the playlist ended;
an explicit stop finalizes the playlist.  In the fatal and stopped states
every event is ignored.  (The spec's backoff-counter reset after a
sustained healthy run is not modelled; the claims below concern
consecutive crashes, where it plays no role.) -/
def stepSess (maxAttempts window : Nat) (s : Sess) (e : SEvent) : Sess :=
  match e, s.sup with
  | .segmentDone d, .running _ =>
      { s with
        pl := append window s.pl { seq := s.nextSeq, duration := d }
        nextSeq := s.nextSeq + 1
        appended := s.appended ++ [s.nextSeq] }
  | .crash, .running f =>
      if maxAttempts ≤ f + 1 then
        { s with sup := .fatal, pl := { s.pl with ended := true } }
      else
        { s with sup := .running (f + 1) }
  | .stopCmd, .running _ =>
      { s with sup := .stopped, pl := { s.pl with ended := true } }
  | _, _ => s

/-- A fresh session whose first segment carries sequence number `startSeq`. -/
def initSess (startSeq : Nat) : Sess :=
  { sup := .running 0, pl := emptyPlaylist startSeq, nextSeq := startSeq
    appended := [] }

/-- Run a session over a list of events. -/
def runSess (maxAttempts window : Nat) (s : Sess) (es : List SEvent) : Sess :=
  es.foldl (stepSess maxAttempts window) s

/-- Structural invariant tying a session to its start sequence `s0`: the
retained playlist is the contiguous run of sequence numbers starting at the
media-sequence counter, the next sequence number sits immediately after it,
and the append trace is the contiguous run from `s0` up to `nextSeq`. -/
def SessInv (s0 : Nat) (s : Sess) : Prop :=
  s.pl.segments.map Segment.seq =
    List.range' s.pl.mediaSeq s.pl.segments.length ∧
  s.nextSeq = s.pl.mediaSeq + s.pl.segments.length ∧
  s0 ≤ s.nextSeq ∧
  s.appended = List.range' s0 (s.nextSeq - s0)

theorem evict_range (window : Nat) :
    ∀ (segs : List Segment) (m k : Nat),
      segs.map Segment.seq = List.range' m k →
      (evict window segs m).1.map Segment.seq =
        List.range' (evict window segs m).2 (evict window segs m).1.length ∧
      m ≤ (evict window segs m).2 ∧
      (evict window segs m).2 + (evict window segs m).1.length = m + k := by
  intro segs
  induction segs with
  | nil =>
      intro m k h
      simp only [List.map_nil] at h
      have hk : k = 0 := by
        rcases k with _ | k
        · rfl
        · rw [List.range'_succ] at h; exact absurd h (by simp)
      subst hk
      simp [evict]
  | cons s rest ih =>
      intro m k h
      rcases k with _ | k
      · simp at h
      rw [List.range'_succ] at h
      simp only [List.map_cons, List.cons.injEq] at h
      obtain ⟨hs, hrest⟩ := h
      show ((if window < totalDuration (s :: rest) then
              evict window rest (m + 1) else (s :: rest, m)).1.map Segment.seq =
            _) ∧ _
      by_cases hcond : window < totalDuration (s :: rest)
      · simp only [evict, if_pos hcond]
        obtain ⟨h1, h2, h3⟩ := ih (m + 1) k hrest
        exact ⟨h1, by omega, by omega⟩
      · simp only [evict, if_neg hcond]
        have hlen : rest.length = k := by
          have := congrArg List.length hrest
          simpa using this
        refine ⟨?_, le_refl m, by simp [hlen]⟩
        simp only [List.map_cons, List.length_cons, hlen, List.range'_succ,
          hs, hrest]

/-- The session invariant only depends on the playlist contents, the
media-sequence counter, the next sequence number and the append trace. -/
theorem sessInv_of_fields (s0 : Nat) (s t : Sess)
    (h1 : t.pl.segments = s.pl.segments)
    (h2 : t.pl.mediaSeq = s.pl.mediaSeq)
    (h3 : t.nextSeq = s.nextSeq)
    (h4 : t.appended = s.appended)
    (h : SessInv s0 s) : SessInv s0 t := by
  obtain ⟨a, b, c, d⟩ := h
  refine ⟨?_, ?_, ?_, ?_⟩
  · rw [h1, h2]; exact a
  · rw [h3, h2, h1]; exact b
  · rw [h3]; exact c
  · rw [h4, h3]; exact d

/-- In the fatal state every event is ignored. -/
theorem stepSess_fatal (maxAttempts window : Nat) (s : Sess) (e : SEvent)
    (h : s.sup = SupState.fatal) :
    stepSess maxAttempts window s e = s := by
  cases e <;> simp [stepSess, h]

/-- In the stopped state every event is ignored. -/
theorem stepSess_stopped (maxAttempts window : Nat) (s : Sess) (e : SEvent)
    (h : s.sup = SupState.stopped) :
    stepSess maxAttempts window s e = s := by
  cases e <;> simp [stepSess, h]

theorem stepSess_inv (maxAttempts window s0 : Nat) (s : Sess) (e : SEvent)
    (h : SessInv s0 s) : SessInv s0 (stepSess maxAttempts window s e) := by
  obtain ⟨hseg, hnext, hle, happ⟩ := h
  cases e with
  | segmentDone d =>
      cases hsup : s.sup with
      | running f =>
          have hmap : (s.pl.segments ++ [Segment.mk s.nextSeq d]).map
              Segment.seq =
              List.range' s.pl.mediaSeq (s.pl.segments.length + 1) := by
            rw [List.range'_concat]
            simp [hseg, hnext]
          obtain ⟨h1, h2, h3⟩ := evict_range window
            (s.pl.segments ++ [Segment.mk s.nextSeq d]) s.pl.mediaSeq
            (s.pl.segments.length + 1) hmap
          simp only [stepSess, hsup]
          refine ⟨h1, ?_, ?_, ?_⟩
          · show s.nextSeq + 1 =
              (evict window (s.pl.segments ++ [Segment.mk s.nextSeq d])
                s.pl.mediaSeq).2 +
              (evict window (s.pl.segments ++ [Segment.mk s.nextSeq d])
                s.pl.mediaSeq).1.length
            omega
          · show s0 ≤ s.nextSeq + 1
            omega
          · show s.appended ++ [s.nextSeq] = List.range' s0 (s.nextSeq + 1 - s0)
            have hd : s.nextSeq + 1 - s0 = (s.nextSeq - s0) + 1 := by omega
            rw [hd, List.range'_concat, happ]
            have he : s0 + 1 * (s.nextSeq - s0) = s.nextSeq := by omega
            rw [he]
      | fatal =>
          rw [stepSess_fatal maxAttempts window s _ hsup]
          exact ⟨hseg, hnext, hle, happ⟩
      | stopped =>
          rw [stepSess_stopped maxAttempts window s _ hsup]
          exact ⟨hseg, hnext, hle, happ⟩
  | crash =>
      cases hsup : s.sup with
      | running f =>
          by_cases hb : maxAttempts ≤ f + 1
          · exact sessInv_of_fields s0 s _ (by simp [stepSess, hsup, hb])
              (by simp [stepSess, hsup, hb]) (by simp [stepSess, hsup, hb])
              (by simp [stepSess, hsup, hb]) ⟨hseg, hnext, hle, happ⟩
          · exact sessInv_of_fields s0 s _ (by simp [stepSess, hsup, hb])
              (by simp [stepSess, hsup, hb]) (by simp [stepSess, hsup, hb])
              (by simp [stepSess, hsup, hb]) ⟨hseg, hnext, hle, happ⟩
      | fatal =>
          rw [stepSess_fatal maxAttempts window s _ hsup]
          exact ⟨hseg, hnext, hle, happ⟩
      | stopped =>
          rw [stepSess_stopped maxAttempts window s _ hsup]
          exact ⟨hseg, hnext, hle, happ⟩
  | stopCmd =>
      cases hsup : s.sup with
      | running f =>
          exact sessInv_of_fields s0 s _ (by simp [stepSess, hsup])
            (by simp [stepSess, hsup]) (by simp [stepSess, hsup])
            (by simp [stepSess, hsup]) ⟨hseg, hnext, hle, happ⟩
      | fatal =>
          rw [stepSess_fatal maxAttempts window s _ hsup]
          exact ⟨hseg, hnext, hle, happ⟩
      | stopped =>
          rw [stepSess_stopped maxAttempts window s _ hsup]
          exact ⟨hseg, hnext, hle, happ⟩

theorem runSess_inv (maxAttempts window s0 : Nat) (es : List SEvent)
    (s : Sess) (h : SessInv s0 s) :
    SessInv s0 (runSess maxAttempts window s es) := by
  induction es generalizing s with
  | nil => exact h
  | cons e es ih =>
      exact ih _ (stepSess_inv maxAttempts window s0 s e h)

theorem initSess_inv (s0 : Nat) : SessInv s0 (initSess s0) := by
  refine ⟨rfl, rfl, le_refl s0, ?_⟩
  simp [initSess]

/-- Once fatal, a session ignores every further event sequence. -/
theorem runSess_fatal (maxAttempts window : Nat) (s : Sess)
    (es : List SEvent) (h : s.sup = SupState.fatal) :
    runSess maxAttempts window s es = s := by
  induction es with
  | nil => rfl
  | cons e es ih =>
      show runSess maxAttempts window (stepSess maxAttempts window s e) es = s
      rw [stepSess_fatal maxAttempts window s e h]
      exact ih

/-- Eviction never removes the just-appended tail segment when its duration
fits in the window. -/
theorem evict_keeps_last (window : Nat) (seg : Segment)
    (hdur : seg.duration ≤ window) :
    ∀ (segs : List Segment) (m : Nat),
      (evict window (segs ++ [seg]) m).1 ≠ [] := by
  intro segs
  induction segs with
  | nil =>
      intro m
      have hc : ¬ window < totalDuration [seg] := by
        simp [totalDuration]
        omega
      simp [evict, hc]
  | cons s rest ih =>
      intro m
      show (if window < totalDuration (s :: (rest ++ [seg])) then
              evict window (rest ++ [seg]) (m + 1)
            else (s :: (rest ++ [seg]), m)).1 ≠ []
      by_cases hc : window < totalDuration (s :: (rest ++ [seg]))
      · rw [if_pos hc]
        exact ih (m + 1)
      · rw [if_neg hc]
        simp

/-- The spec's worker-exhaustion scenario: `maxRestartAttempts = 3` and
three consecutive crashes of the worker. -/
def crashedSess : Sess :=
  runSess 3 20 (initSess 1) [SEvent.crash, SEvent.crash, SEvent.crash]

/-- Modelled from the spec: the error taxonomy entries the registry-level
claims need. -/
inductive RegErr where
  | DuplicateStream
  | NotFound
  deriving DecidableEq, Repr

/-- Modelled from the spec: the IngestServer / SessionRegistry state — the
live sessions keyed by stream name (each with its playlist) and the
finalized playlists of stopped sessions. -/
structure Server where
  live : List (String × Playlist)
  finalized : List (String × Playlist)
  deriving DecidableEq, Repr

/-- A server with no sessions. -/
def serverInit : Server := { live := [], finalized := [] }

/-- Modelled from the spec: `SessionRegistry.create` — atomic
check-and-create; a name that is already registered is rejected with
`DuplicateStream`, otherwise the session is registered. -/
def createSession (srv : Server) (n : String) : Server × Option RegErr :=
  if n ∈ srv.live.map Prod.fst then (srv, some RegErr.DuplicateStream)
  else ({ srv with live := (n, emptyPlaylist 1) :: srv.live }, none)

/-- Modelled from the spec: the IngestServer stop path — finalize the
playlist (mark it ended), remove the session from the registry; stop is
idempotent, so a stop that finds no live session of that name is a no-op
that returns no error. -/
def stopSession (srv : Server) (n : String) : Server × Option RegErr :=
  match srv.live.find? (fun p => p.1 == n) with
  | some p =>
      ({ live := srv.live.filter (fun q => q.1 != n)
         finalized := (n, { p.2 with ended := true }) :: srv.finalized },
       none)
  | none => (srv, none)

/-- Modelled from the spec: the publish / stop events the IngestServer
receives for stream names. -/
inductive REvent where
  | publish (n : String)
  | stopStream (n : String)
  deriving DecidableEq, Repr

/-- One IngestServer step. -/
def serverStep (srv : Server) (e : REvent) : Server :=
  match e with
  | .publish n => (createSession srv n).1
  | .stopStream n => (stopSession srv n).1

/-- Run the server over a sequence of publish/stop events. -/
def runServer (es : List REvent) (srv : Server) : Server :=
  es.foldl serverStep srv

theorem serverStep_nodup (srv : Server) (e : REvent)
    (h : (srv.live.map Prod.fst).Nodup) :
    ((serverStep srv e).live.map Prod.fst).Nodup := by
  cases e with
  | publish n =>
      by_cases hc : n ∈ srv.live.map Prod.fst
      · simpa [serverStep, createSession, hc] using h
      · simp only [serverStep, createSession, if_neg hc, List.map_cons]
        exact List.nodup_cons.mpr ⟨hc, h⟩
  | stopStream n =>
      cases hf : srv.live.find? (fun p => p.1 == n) with
      | none => simpa [serverStep, stopSession, hf] using h
      | some p =>
          simp only [serverStep, stopSession, hf]
          exact List.Nodup.sublist
            ((List.filter_sublist srv.live).map Prod.fst) h

theorem runServer_nodup (es : List REvent) (srv : Server)
    (h : (srv.live.map Prod.fst).Nodup) :
    ((runServer es srv).live.map Prod.fst).Nodup := by
  induction es generalizing srv with
  | nil => exact h
  | cons e es ih => exact ih _ (serverStep_nodup srv e h)

/-- A sample event trace with a crash/restart in the middle, used to
instantiate the universally quantified session theorems. -/
def demoEvents : List SEvent :=
  [SEvent.segmentDone 4, SEvent.crash, SEvent.segmentDone 4, SEvent.stopCmd]

end Relay

namespace GoFFI

/-- A region of C memory holding a NUL-terminated string, as the list of
its code points; the string proper ends at the first NUL (0).  `Echo` in
`go_string.go` receives a `*C.char` pointing into such memory. -/
abbrev CMem := List Nat

/-- Embeds `C.GoString`: the Go string read from C memory is everything up
to the first NUL. -/
def goStringOf (mem : CMem) : List Nat :=
  mem.takeWhile (fun c => c != 0)

/-- Embeds `C.CString`: allocate fresh C memory holding the string
followed by a terminating NUL. -/
def cStringOf (s : List Nat) : CMem := s ++ [0]

/-- Embeds the Go standard library's `unicode.ToUpper` (the simple Unicode
uppercase mapping that `strings.ToUpper` maps over the string), restricted
to the ASCII, Latin-1 Supplement, Greek and basic Cyrillic case ranges of
the Go case tables; code points outside the modelled ranges are left
unchanged, exactly as `unicode.ToUpper` treats caseless code points. -/
def toUpperRune (r : Nat) : Nat :=
  if 97 ≤ r ∧ r ≤ 122 then r - 32
  else if r = 181 then 924
  else if 224 ≤ r ∧ r ≤ 254 ∧ r ≠ 247 then r - 32
  else if r = 255 then 376
  else if r = 962 then 931
  else if 945 ≤ r ∧ r ≤ 969 then r - 32
  else if 1072 ≤ r ∧ r ≤ 1103 then r - 32
  else if 1104 ≤ r ∧ r ≤ 1119 then r - 80
  else r

/-- Embeds `strings.ToUpper` at the code-point level: apply the uppercase
mapping to every rune of the string. -/
def toUpperGo (s : List Nat) : List Nat := s.map toUpperRune

/-- Embeds `Echo` from `go_string.go`:
`C.CString(strings.ToUpper(C.GoString(s)))`. -/
def Echo (mem : CMem) : CMem := cStringOf (toUpperGo (goStringOf mem))

/-- UTF-8 encoded width in bytes of one code point. -/
def utf8Width (r : Nat) : Nat :=
  if r < 128 then 1 else if r < 2048 then 2 else if r < 65536 then 3 else 4

/-- UTF-8 encoded length in bytes of a string given as code points. -/
def utf8Length (s : List Nat) : Nat := (s.map utf8Width).sum

set_option maxRecDepth 4096 in
/-- The uppercase mapping is idempotent on code points: every code point
it produces is a fixed point. -/
theorem toUpperRune_idem (r : Nat) :
    toUpperRune (toUpperRune r) = toUpperRune r := by
  by_cases h : r < 1120
  · have hall : ∀ r' < 1120, toUpperRune (toUpperRune r') = toUpperRune r' := by
      decide
    exact hall r h
  · have hr : toUpperRune r = r := by
      unfold toUpperRune
      split_ifs <;> omega
    rw [hr, hr]

/-- The uppercase mapping never produces a NUL from a non-NUL code point. -/
theorem toUpperRune_ne_zero (r : Nat) (h : r ≠ 0) : toUpperRune r ≠ 0 := by
  unfold toUpperRune
  split_ifs <;> omega

theorem takeWhile_nul (s : List Nat) (h : ∀ c ∈ s, c ≠ 0) :
    (s ++ [0]).takeWhile (fun c => c != 0) = s := by
  induction s with
  | nil => simp
  | cons a s ih =>
      have ha : ((fun c => c != 0) a) = true := by
        simp [h a (List.mem_cons_self a s)]
      simp only [List.cons_append, List.takeWhile_cons, ha, if_true]
      rw [ih (fun c hc => h c (List.mem_cons_of_mem a hc))]

/-- Reading back the C string `Echo` allocated yields exactly the
uppercased input string. -/
theorem goStringOf_Echo (mem : CMem) :
    goStringOf (Echo mem) = toUpperGo (goStringOf mem) := by
  show (toUpperGo (goStringOf mem) ++ [0]).takeWhile (fun c => c != 0) =
    toUpperGo (goStringOf mem)
  apply takeWhile_nul
  intro c hc
  obtain ⟨r, hr, rfl⟩ := List.mem_map.mp hc
  have hr0 : r ≠ 0 := by
    have := List.mem_takeWhile_imp hr
    simpa using this
  exact toUpperRune_ne_zero r hr0

end GoFFI

/-- C8: for every NUL-terminated input C string, the C string `Echo`
returns is itself NUL-terminated and its contents equal the Unicode
uppercase mapping (`strings.ToUpper`) of the input string. -/
theorem GoFFI.Echo_spec (mem : GoFFI.CMem) (h : 0 ∈ mem) :
    GoFFI.goStringOf (GoFFI.Echo mem) =
      GoFFI.toUpperGo (GoFFI.goStringOf mem) ∧
    0 ∈ GoFFI.Echo mem := by
  refine ⟨GoFFI.goStringOf_Echo mem, ?_⟩
  simp [GoFFI.Echo, GoFFI.cStringOf]

/-- Witness for C8 on the concrete input "hi". -/
theorem GoFFI.Echo_spec_w :
    (0 ∈ ([104, 105, 0] : GoFFI.CMem)) ∧
    (GoFFI.goStringOf (GoFFI.Echo [104, 105, 0]) =
      GoFFI.toUpperGo (GoFFI.goStringOf [104, 105, 0]) ∧
    0 ∈ GoFFI.Echo [104, 105, 0]) :=
  ⟨by decide, GoFFI.Echo_spec [104, 105, 0] (by decide)⟩

/-- C9: `Echo` is idempotent — applying it to its own output returns an
equal C string. -/
theorem GoFFI.Echo_idempotent (mem : GoFFI.CMem) :
    GoFFI.Echo (GoFFI.Echo mem) = GoFFI.Echo mem := by
  show GoFFI.cStringOf (GoFFI.toUpperGo (GoFFI.goStringOf (GoFFI.Echo mem))) =
    GoFFI.Echo mem
  rw [GoFFI.goStringOf_Echo]
  show GoFFI.cStringOf _ = GoFFI.cStringOf _
  congr 1
  unfold GoFFI.toUpperGo
  rw [List.map_map]
  exact List.map_congr_left fun r _ => GoFFI.toUpperRune_idem r

/-- Witness for C9 on the concrete input "a". -/
theorem GoFFI.Echo_idempotent_w :
    GoFFI.Echo (GoFFI.Echo [97, 0]) = GoFFI.Echo [97, 0] :=
  GoFFI.Echo_idempotent [97, 0]

/-- C10: on an all-ASCII input string the string `Echo` returns has the
same UTF-8 byte length (and the same number of code points) as the input. -/
theorem GoFFI.Echo_ascii_length (mem : GoFFI.CMem)
    (h : ∀ c ∈ GoFFI.goStringOf mem, c < 128) :
    GoFFI.utf8Length (GoFFI.goStringOf (GoFFI.Echo mem)) =
      GoFFI.utf8Length (GoFFI.goStringOf mem) ∧
    (GoFFI.goStringOf (GoFFI.Echo mem)).length =
      (GoFFI.goStringOf mem).length := by
  rw [GoFFI.goStringOf_Echo]
  constructor
  · show ((GoFFI.goStringOf mem).map GoFFI.toUpperRune |>.map
        GoFFI.utf8Width).sum = _
    rw [List.map_map]
    apply congrArg List.sum
    apply List.map_congr_left
    intro c hc
    have hlt := h c hc
    show GoFFI.utf8Width (GoFFI.toUpperRune c) = GoFFI.utf8Width c
    have hup : GoFFI.toUpperRune c = c - 32 ∨ GoFFI.toUpperRune c = c := by
      unfold GoFFI.toUpperRune
      split_ifs <;> omega
    cases hup with
    | inl h1 =>
        rw [h1]
        unfold GoFFI.utf8Width
        split_ifs <;> omega
    | inr h1 => rw [h1]
  · simp [GoFFI.toUpperGo]

/-- Witness for C10 on the concrete input "hi". -/
theorem GoFFI.Echo_ascii_length_w :
    (∀ c ∈ GoFFI.goStringOf [104, 105, 0], c < 128) ∧
    (GoFFI.utf8Length (GoFFI.goStringOf (GoFFI.Echo [104, 105, 0])) =
      GoFFI.utf8Length (GoFFI.goStringOf [104, 105, 0]) ∧
    (GoFFI.goStringOf (GoFFI.Echo [104, 105, 0])).length =
      (GoFFI.goStringOf [104, 105, 0]).length) :=
  ⟨by decide, GoFFI.Echo_ascii_length [104, 105, 0] (by decide)⟩

/-- C1: with a 20 s retention window and 4 s segments, after 6 sequential
appends the playlist contains exactly the 5 segments numbered 2 through 6
and the media-sequence counter equals 2. -/
theorem Relay.windowScenario_spec :
    Relay.windowScenario.segments.map Relay.Segment.seq = [2, 3, 4, 5, 6] ∧
    Relay.windowScenario.segments.length = 5 ∧
    Relay.windowScenario.mediaSeq = 2 := by
  decide

/-- C3: over every event sequence a session may observe, the sequence
numbers in the playlist are exactly the contiguous run starting at the
media-sequence counter (strictly increasing, no gaps), and the trace of all
sequence numbers ever appended has no duplicate, so a sequence number is
never reused after its segment is evicted. -/
theorem Relay.playlist_seq_contiguous (maxAttempts window s0 : Nat)
    (es : List Relay.SEvent) :
    ((Relay.runSess maxAttempts window (Relay.initSess s0) es).pl.segments.map
        Relay.Segment.seq =
      List.range'
        (Relay.runSess maxAttempts window (Relay.initSess s0) es).pl.mediaSeq
        (Relay.runSess maxAttempts window
          (Relay.initSess s0) es).pl.segments.length) ∧
    ((Relay.runSess maxAttempts window (Relay.initSess s0) es).pl.segments.map
        Relay.Segment.seq).Pairwise (· < ·) ∧
    (Relay.runSess maxAttempts window (Relay.initSess s0) es).appended.Nodup := by
  obtain ⟨h1, h2, h3, h4⟩ :=
    Relay.runSess_inv maxAttempts window s0 es (Relay.initSess s0)
      (Relay.initSess_inv s0)
  refine ⟨h1, ?_, ?_⟩
  · rw [h1]
    exact List.pairwise_lt_range' _ _
  · rw [h4]
    exact List.nodup_range' _ _

/-- Witness for C3 on a concrete event trace with a crash in the middle. -/
theorem Relay.playlist_seq_contiguous_w :
    ((Relay.runSess 3 20 (Relay.initSess 1) Relay.demoEvents).pl.segments.map
        Relay.Segment.seq =
      List.range'
        (Relay.runSess 3 20 (Relay.initSess 1) Relay.demoEvents).pl.mediaSeq
        (Relay.runSess 3 20
          (Relay.initSess 1) Relay.demoEvents).pl.segments.length) ∧
    ((Relay.runSess 3 20 (Relay.initSess 1) Relay.demoEvents).pl.segments.map
        Relay.Segment.seq).Pairwise (· < ·) ∧
    (Relay.runSess 3 20 (Relay.initSess 1) Relay.demoEvents).appended.Nodup :=
  Relay.playlist_seq_contiguous 3 20 1 Relay.demoEvents

/-- C4: with `maxRestartAttempts = 3`, two crashes leave the session
running, the third crash transitions it to fatal teardown with the playlist
marked ended, and from then on every further event sequence leaves the
session (in particular its playlist) unchanged — no segment is ever
appended again. -/
theorem Relay.worker_exhausted_teardown :
    (Relay.runSess 3 20 (Relay.initSess 1)
        [Relay.SEvent.crash, Relay.SEvent.crash]).sup =
      Relay.SupState.running 2 ∧
    Relay.crashedSess.sup = Relay.SupState.fatal ∧
    Relay.crashedSess.pl.ended = true ∧
    ∀ es : List Relay.SEvent,
      Relay.runSess 3 20 Relay.crashedSess es = Relay.crashedSess := by
  refine ⟨by decide, by decide, by decide, ?_⟩
  intro es
  exact Relay.runSess_fatal 3 20 Relay.crashedSess es (by decide)

/-- C6: across every event sequence — crashes and restarts included — no
sequence number is ever appended to the playlist twice: each number occurs
at most once in the append trace. -/
theorem Relay.restart_never_duplicates_seq (maxAttempts window s0 : Nat)
    (es : List Relay.SEvent) (n : Nat) :
    (Relay.runSess maxAttempts window
        (Relay.initSess s0) es).appended.count n ≤ 1 := by
  obtain ⟨h1, h2, h3, h4⟩ :=
    Relay.runSess_inv maxAttempts window s0 es (Relay.initSess s0)
      (Relay.initSess_inv s0)
  rw [h4]
  exact List.nodup_iff_count_le_one.mp (List.nodup_range' _ _) n

/-- Witness for C6 on a concrete event trace with a crash in the middle. -/
theorem Relay.restart_never_duplicates_seq_w :
    (Relay.runSess 3 20
      (Relay.initSess 1) Relay.demoEvents).appended.count 1 ≤ 1 :=
  Relay.restart_never_duplicates_seq 3 20 1 Relay.demoEvents 1

/-- C7: appending a segment whose duration fits in the retention window
never leaves the playlist empty — after any append the playlist retains at
least one segment, so readers never observe a playlist referencing zero
segments once the session has produced a segment. -/
theorem Relay.append_keeps_playlist_nonempty (window : Nat)
    (pl : Relay.Playlist) (seg : Relay.Segment)
    (hdur : seg.duration ≤ window) :
    (Relay.append window pl seg).segments ≠ [] := by
  show (Relay.evict window (pl.segments ++ [seg]) pl.mediaSeq).1 ≠ []
  exact Relay.evict_keeps_last window seg hdur pl.segments pl.mediaSeq

/-- Witness for C7 at the spec's configuration: a 4 s segment, 20 s window. -/
theorem Relay.append_keeps_playlist_nonempty_w :
    (Relay.Segment.mk 6 4).duration ≤ 20 ∧
    (Relay.append 20 Relay.windowScenario (Relay.Segment.mk 6 4)).segments ≠ [] :=
  ⟨by decide,
   Relay.append_keeps_playlist_nonempty 20 Relay.windowScenario
     (Relay.Segment.mk 6 4) (by decide)⟩

/-- C2: over every sequence of publish/stop events the registry holds at
most one live session per stream name (the list of live names is
duplicate-free), and two publishes of the same fresh name resolve so that
exactly the first create succeeds while the second is rejected with
`DuplicateStream` and changes nothing — by atomicity of check-and-create
this covers both interleavings of a race. -/
theorem Relay.at_most_one_session_per_name :
    (∀ es : List Relay.REvent,
      ((Relay.runServer es Relay.serverInit).live.map Prod.fst).Nodup) ∧
    (∀ (srv : Relay.Server) (n : String), n ∉ srv.live.map Prod.fst →
      (Relay.createSession srv n).2 = none ∧
      n ∈ (Relay.createSession srv n).1.live.map Prod.fst ∧
      (Relay.createSession (Relay.createSession srv n).1 n).2 =
        some Relay.RegErr.DuplicateStream ∧
      (Relay.createSession (Relay.createSession srv n).1 n).1 =
        (Relay.createSession srv n).1) := by
  constructor
  · intro es
    exact Relay.runServer_nodup es Relay.serverInit (by simp [Relay.serverInit])
  · intro srv n hn
    have hmem : n ∈ ((n, Relay.emptyPlaylist 1) :: srv.live).map Prod.fst := by
      simp
    refine ⟨?_, ?_, ?_, ?_⟩
    · simp [Relay.createSession, if_neg hn]
    · simp [Relay.createSession, if_neg hn]
    · simp only [Relay.createSession, if_neg hn]
      rw [if_pos hmem]
    · simp only [Relay.createSession, if_neg hn]
      rw [if_pos hmem]

/-- Witness for C2: publishing "alpha" twice on a fresh server — the live
name list stays duplicate-free, the first create succeeds and the second
fails with DuplicateStream. -/
theorem Relay.at_most_one_session_per_name_w :
    ((Relay.runServer [Relay.REvent.publish "alpha",
        Relay.REvent.publish "alpha"]
        Relay.serverInit).live.map Prod.fst).Nodup ∧
    (Relay.createSession Relay.serverInit "alpha").2 = none ∧
    (Relay.createSession
        (Relay.createSession Relay.serverInit "alpha").1 "alpha").2 =
      some Relay.RegErr.DuplicateStream :=
  ⟨Relay.at_most_one_session_per_name.1
      [Relay.REvent.publish "alpha", Relay.REvent.publish "alpha"],
   (Relay.at_most_one_session_per_name.2 Relay.serverInit "alpha"
      (by simp [Relay.serverInit])).1,
   (Relay.at_most_one_session_per_name.2 Relay.serverInit "alpha"
      (by simp [Relay.serverInit])).2.2.1⟩

/-- C5: stopping the same stream twice in succession makes the second stop
a no-op — it returns no error and leaves the whole server state (live
sessions and already-finalized playlists) exactly as after the first stop,
so the playlist is not re-finalized. -/
theorem Relay.stop_idempotent (srv : Relay.Server) (n : String) :
    Relay.stopSession (Relay.stopSession srv n).1 n =
      ((Relay.stopSession srv n).1, none) := by
  cases hf : srv.live.find? (fun p => p.1 == n) with
  | none =>
      have h1 : Relay.stopSession srv n = (srv, none) := by
        simp [Relay.stopSession, hf]
      rw [h1]
      exact h1
  | some p =>
      have h1 : Relay.stopSession srv n =
          ({ live := srv.live.filter (fun q => q.1 != n)
             finalized := (n, { p.2 with ended := true }) :: srv.finalized },
           none) := by
        simp [Relay.stopSession, hf]
      rw [h1]
      have hnone : (srv.live.filter (fun q => q.1 != n)).find?
          (fun p => p.1 == n) = none := by
        rw [List.find?_eq_none]
        intro x hx
        have hne := (List.mem_filter.mp hx).2
        simp only [bne_iff_ne, ne_eq] at hne
        simp [hne]
      simp [Relay.stopSession, hnone]

/-- Witness for C5: stop "alpha" twice after publishing it. -/
theorem Relay.stop_idempotent_w :
    Relay.stopSession
        (Relay.stopSession
          (Relay.serverStep Relay.serverInit
            (Relay.REvent.publish "alpha")) "alpha").1 "alpha" =
      ((Relay.stopSession
          (Relay.serverStep Relay.serverInit
            (Relay.REvent.publish "alpha")) "alpha").1, none) :=
  Relay.stop_idempotent
    (Relay.serverStep Relay.serverInit (Relay.REvent.publish "alpha")) "alpha"
